import Mathlib

/-!
Shallow embedding of the brute-force graph-colouring core of
`brute_force_colourings.py`.

Modelling conventions:
* A graph is its ordered vertex list (`list(G)`) plus its edge list
  (`G.edges()`); vertex identities are natural numbers.
* A Python dict produced by `colouring_list_to_dict` is an association
  list of (vertex, colour) pairs in insertion order; lookup finds the
  first matching key (identical to Python lookup whenever the vertex
  list has no duplicates, which holds for every actual graph).
* A Python function that can raise an exception returns `Option`
  (`none` = exception).  The two search entry points return
  `Except Unit (Option Colouring)`: `.error ()` models an uncaught
  exception, `.ok none` models the Python `return None` paths (and,
  for the fuel-bounded product search, fuel exhaustion), and
  `.ok (some d)` models returning the colouring dict `d`.
* `product_brute_force_colouring` is a `while True:` loop in Python;
  it is embedded with an explicit fuel bounding the number of times
  the colour count is incremented, and termination claims are stated
  as: any fuel of at least `n` iterations yields a result.
-/

/-- A finite graph as the Python code consumes it: the ordered vertex
sequence `list(G)` and the edge sequence `G.edges()`. -/
structure Graph where
  vertices : List Nat
  edges : List (Nat × Nat)
deriving DecidableEq

/-- The map-form colouring (`dict` in Python), as an association list in
insertion order. -/
abbrev Colouring := List (Nat × Nat)

/-- Python dict lookup `colouring[v]` : the value of the first pair whose
key is `v`, or `none` (`KeyError`) when no pair matches. -/
def dictLookup (colouring : Colouring) (v : Nat) : Option Nat :=
  (colouring.find? (fun p => p.1 == v)).map Prod.snd

/-- The edge loop of `validate_colouring`: return `some false` on the first
edge whose two endpoint colours agree, `some true` if no edge does, and
`none` (`KeyError`) if an endpoint is missing from the colouring. -/
def validate_edges (colouring : Colouring) : List (Nat × Nat) → Option Bool
  | [] => some true
  | e :: rest =>
    match dictLookup colouring e.1, dictLookup colouring e.2 with
    | some c1, some c2 => if c1 = c2 then some false else validate_edges colouring rest
    | _, _ => none

/-- `validate_colouring(G, colouring)` from the source: true iff every edge
of `G` has differently coloured endpoints, checked edge by edge. -/
def validate_colouring (G : Graph) (colouring : Colouring) : Option Bool :=
  validate_edges colouring G.edges

/-- `colouring_list_to_dict(colouring_list, vertices)`: pair
`vertices[i]` with `colouring_list[i]` for every index of
`colouring_list`; `none` models the `IndexError` raised when
`colouring_list` is longer than `vertices`. -/
def colouring_list_to_dict : List Nat → List Nat → Option Colouring
  | [], _ => some []
  | _ :: _, [] => none
  | c :: cs, v :: vs => (colouring_list_to_dict cs vs).map (fun d => (v, c) :: d)

/-- `itertools.product(range(k), repeat=n)`: all length-`n` sequences over
`{0, …, k−1}` in lexicographic order (first position varies slowest). -/
def allSeqs (k : Nat) : Nat → List (List Nat)
  | 0 => [[]]
  | n + 1 => (List.range k).flatMap (fun c => (allSeqs k n).map (fun cl => c :: cl))

/-- The sequences the product search materialises and validates at colour
count `k`: the full product filtered by the `colours - 1 in colouring_option`
pruning test. -/
def productCandidates (k n : Nat) : List (List Nat) :=
  (allSeqs k n).filter (fun cl => cl.contains (k - 1))

/-- The shared inner loop of both searches: materialise each candidate
sequence with `colouring_list_to_dict`, validate it, and return the first
valid colouring; `.error ()` models an uncaught Python exception. -/
def tryCandidates (G : Graph) : List (List Nat) → Except Unit (Option Colouring)
  | [] => .ok none
  | cl :: rest =>
    match colouring_list_to_dict cl G.vertices with
    | none => .error ()
    | some d =>
      match validate_colouring G d with
      | none => .error ()
      | some true => .ok (some d)
      | some false => tryCandidates G rest

/-- The `while True:` loop of `product_brute_force_colouring`, fuelled:
each unit of fuel is one iteration (one colour count `k`). -/
def productSearchAux (G : Graph) : Nat → Nat → Except Unit (Option Colouring)
  | _, 0 => .ok none
  | k, fuel + 1 =>
    match tryCandidates G (productCandidates k G.vertices.length) with
    | .error _ => .error ()
    | .ok (some d) => .ok (some d)
    | .ok none => productSearchAux G (k + 1) fuel

/-- `product_brute_force_colouring(G)` starting at one colour, allowed
`fuel` iterations of the unbounded Python loop. -/
def product_brute_force_colouring (G : Graph) (fuel : Nat) : Except Unit (Option Colouring) :=
  productSearchAux G 1 fuel

/-- `create_options(colours, size)` from the source:
`list(range(1, colours+1))` followed by `(size - colours)` copies of
`colours` (the Python list-repeat of a negative count is empty, exactly
like truncated subtraction). -/
def create_options (colours size : Nat) : List Nat :=
  (List.range' 1 colours) ++ List.replicate (size - colours) colours

/-- The digit loop of `colouring_generator`, already walking the reversed
options list: append `index % base` and continue with `index / base`. -/
def colouring_generator_aux (colouring_index : Nat) : List Nat → List Nat
  | [] => []
  | b :: rest => (colouring_index % b) :: colouring_generator_aux (colouring_index / b) rest

/-- `colouring_generator(colouring_index, options)`: walk the option bounds
from last to first collecting `index mod base` digits, then reverse the
collected digits back into position order. -/
def colouring_generator (colouring_index : Nat) (options : List Nat) : List Nat :=
  (colouring_generator_aux colouring_index options.reverse).reverse

/-- The distinct elements of a list in order of first appearance; its
length is the Python `len(set(colouring_list))`. -/
def distinctsInOrder : List Nat → List Nat
  | [] => []
  | x :: xs => x :: (distinctsInOrder xs).filter (fun y => y ≠ x)

/-- `check_all_colours_in_colouring_list(colours, colouring_list)`:
`len(set(colouring_list)) == colours`. -/
def check_all_colours_in_colouring_list (colours : Nat) (colouring_list : List Nat) : Bool :=
  (distinctsInOrder colouring_list).length == colours

/-- The `number_colourings` accumulation of the source: start at 1 and
multiply by every option bound in turn. -/
def number_colourings (options : List Nat) : Nat :=
  options.foldl (fun a b => a * b) 1

/-- The sequences the custom search materialises and validates at colour
count `k`: decode every counter below `number_colourings`, keeping only
sequences that use all `k` colours. -/
def customCandidates (k : Nat) (options : List Nat) : List (List Nat) :=
  ((List.range (number_colourings options)).map
      (fun c => colouring_generator c options)).filter
    (fun cl => check_all_colours_in_colouring_list k cl)

/-- The `while True:` loop of `custom_brute_force_colouring`, fuelled like
the product loop.  The loop's own `colours <= size` guard returns `None`
as soon as the colour count exceeds the vertex count, so the Python loop
runs at most `size + 1` iterations; `customSearchAux_fuel_stable` below
shows any fuel of at least that many iterations gives the same result,
so the fuelled embedding is exact. -/
def customSearchAux (G : Graph) : Nat → Nat → Except Unit (Option Colouring)
  | _, 0 => .ok none
  | k, fuel + 1 =>
    if k ≤ G.vertices.length then
      match tryCandidates G (customCandidates k (create_options k G.vertices.length)) with
      | .error _ => .error ()
      | .ok (some d) => .ok (some d)
      | .ok none => customSearchAux G (k + 1) fuel
    else .ok none

/-- `custom_brute_force_colouring(G)` starting at one colour, with enough
fuel for the guard to be the only way the loop can stop unsuccessfully. -/
def custom_brute_force_colouring (G : Graph) : Except Unit (Option Colouring) :=
  customSearchAux G 1 (G.vertices.length + 1)

/-! Specification-side definitions used only to state properties. -/

/-- Well-formedness of the graph collaborator: the ordered vertex
sequence is duplicate-free and every edge joins two distinct listed
vertices (a simple undirected graph, as produced by the repository's
graph generators). -/
def Graph.WF (G : Graph) : Prop :=
  G.vertices.Nodup ∧ ∀ e ∈ G.edges, e.1 ∈ G.vertices ∧ e.2 ∈ G.vertices ∧ e.1 ≠ e.2

instance (G : Graph) : Decidable G.WF := by
  unfold Graph.WF; infer_instance

/-- Materialise a positional colour sequence against the graph's vertex
order and validate it, exactly as one iteration of either search does. -/
def validateSeq (G : Graph) (cl : List Nat) : Option Bool :=
  match colouring_list_to_dict cl G.vertices with
  | some d => validate_colouring G d
  | none => none

/-- Decidable check that a valid colouring of `G` using colours below `k`
exists (searching the finitely many positional sequences). -/
def colourableWithB (G : Graph) (k : Nat) : Bool :=
  (allSeqs k G.vertices.length).any (fun cl => validateSeq G cl == some true)

/-- Linear scan for the least colourable colour count, starting at `k`
with `fuel` candidates to inspect; returns `k + fuel` if none is. -/
def minColoursFrom (G : Graph) : Nat → Nat → Nat
  | 0, k => k
  | fuel + 1, k => if colourableWithB G k then k else minColoursFrom G fuel (k + 1)

/-- The chromatic number of `G` as the least `k ≤ n` admitting a valid
`k`-colouring (defaulting to `n + 1` for degenerate graphs with none). -/
def minColours (G : Graph) : Nat :=
  minColoursFrom G (G.vertices.length + 1) 0

/-- The position of the first occurrence of `x` in a list (the list's
length when absent). -/
def rankOf (x : Nat) : List Nat → Nat
  | [] => 0
  | y :: ys => if y = x then 0 else rankOf x ys + 1

/-- Relabel a colour sequence by order of first appearance: the first
vertex's colour becomes 0, the next previously unseen colour becomes 1,
and so on.  The result uses the same number of distinct colours, keeps
the same equality pattern, and is the canonical representative the
constrained search enumerates. -/
def canonicalize (cl : List Nat) : List Nat :=
  cl.map (fun x => rankOf x (distinctsInOrder cl))

/-- The number of distinct colour values of a map-form colouring. -/
def distinctColours (d : Colouring) : Nat :=
  (distinctsInOrder (d.map Prod.snd)).length

/-- Mixed-radix encoding with least-significant digit first: the inverse
of `colouring_generator_aux`. -/
def mixedEncodeLE : List Nat → List Nat → Nat
  | [], _ => 0
  | _, [] => 0
  | d :: ds, b :: bs => d + b * mixedEncodeLE ds bs

/-! Basic lemmas about the embedded operations. -/

theorem number_colourings_eq_prod (options : List Nat) :
    number_colourings options = options.prod := by
  simp [number_colourings, List.prod_eq_foldl]

theorem mem_allSeqs {k n : Nat} {cl : List Nat} :
    cl ∈ allSeqs k n ↔ cl.length = n ∧ ∀ x ∈ cl, x < k := by
  induction n generalizing cl with
  | zero =>
    simp only [allSeqs, List.mem_singleton]
    constructor
    · rintro rfl; exact ⟨rfl, by simp⟩
    · rintro ⟨h, _⟩; exact List.length_eq_zero.mp h
  | succ n ih =>
    constructor
    · intro h
      simp only [allSeqs, List.mem_flatMap, List.mem_map, List.mem_range] at h
      obtain ⟨c, hc, t, ht, rfl⟩ := h
      obtain ⟨hlen, hall⟩ := ih.mp ht
      refine ⟨by simp [hlen], ?_⟩
      intro x hx
      rcases List.mem_cons.mp hx with rfl | hx
      · exact hc
      · exact hall x hx
    · rintro ⟨hlen, hall⟩
      cases cl with
      | nil => simp at hlen
      | cons c t =>
        simp only [allSeqs, List.mem_flatMap, List.mem_map, List.mem_range]
        exact ⟨c, hall c (by simp), t,
          ih.mpr ⟨by simpa using hlen, fun x hx => hall x (List.mem_cons_of_mem _ hx)⟩, rfl⟩

theorem colouring_list_to_dict_eq_zip :
    ∀ (cl vs : List Nat), cl.length ≤ vs.length →
      colouring_list_to_dict cl vs = some (vs.zip cl)
  | [], vs, _ => by simp [colouring_list_to_dict]
  | c :: cs, [], h => by simp at h
  | c :: cs, v :: vs, h => by
    have ih := colouring_list_to_dict_eq_zip cs vs (by simpa using h)
    simp [colouring_list_to_dict, ih, List.zip_cons_cons]

theorem colouring_list_to_dict_eq_none :
    ∀ (cl vs : List Nat), vs.length < cl.length → colouring_list_to_dict cl vs = none
  | [], vs, h => by simp at h
  | c :: cs, [], _ => by simp [colouring_list_to_dict]
  | c :: cs, v :: vs, h => by
    have ih := colouring_list_to_dict_eq_none cs vs (by simpa using h)
    simp [colouring_list_to_dict, ih]

theorem colouring_list_to_dict_eq_some {cl vs : List Nat} {d : Colouring}
    (h : colouring_list_to_dict cl vs = some d) :
    cl.length ≤ vs.length ∧ d = vs.zip cl := by
  rcases le_or_lt cl.length vs.length with hle | hlt
  · refine ⟨hle, ?_⟩
    rw [colouring_list_to_dict_eq_zip cl vs hle] at h
    exact (Option.some.inj h).symm
  · rw [colouring_list_to_dict_eq_none cl vs hlt] at h
    exact absurd h (by simp)

theorem dictLookup_nil {v : Nat} : dictLookup [] v = none := rfl

theorem dictLookup_cons {v' c v : Nat} {d : Colouring} :
    dictLookup ((v', c) :: d) v = if v' = v then some c else dictLookup d v := by
  simp only [dictLookup, List.find?_cons]
  by_cases h : v' = v
  · simp [h]
  · have hb : (v' == v) = false := beq_eq_false_iff_ne.mpr h
    simp [hb, h]

theorem dictLookup_zip_isSome :
    ∀ (vs cl : List Nat) {v : Nat}, vs.length ≤ cl.length → v ∈ vs →
      (dictLookup (vs.zip cl) v).isSome
  | [], _, _, _, hv => by simp at hv
  | v' :: vs, [], _, h, _ => by simp at h
  | v' :: vs, c :: cs, v, h, hv => by
    rw [List.zip_cons_cons, dictLookup_cons]
    by_cases hvv : v' = v
    · simp [hvv]
    · have hv' : v ∈ vs := by
        rcases List.mem_cons.mp hv with h1 | h1
        · exact absurd h1.symm hvv
        · exact h1
      simpa [hvv] using dictLookup_zip_isSome vs cs (by simpa using h) hv'

theorem dictLookup_zip_mem :
    ∀ (vs cl : List Nat) {v c : Nat}, dictLookup (vs.zip cl) v = some c → c ∈ cl
  | [], cl, _, _, h => by simp [dictLookup] at h
  | v' :: vs, [], _, _, h => by simp [dictLookup] at h
  | v' :: vs, c' :: cs, v, c, h => by
    rw [List.zip_cons_cons, dictLookup_cons] at h
    by_cases hvv : v' = v
    · rw [if_pos hvv] at h
      simp at h
      simp [h]
    · rw [if_neg hvv] at h
      exact List.mem_cons_of_mem _ (dictLookup_zip_mem vs cs h)

theorem dictLookup_zip_getElem :
    ∀ (vs cl : List Nat), vs.Nodup → ∀ {i : Nat} (hi : i < vs.length) (hic : i < cl.length),
      dictLookup (vs.zip cl) (vs.get ⟨i, hi⟩) = some (cl.get ⟨i, hic⟩)
  | [], _, _, _, hi, _ => by simp at hi
  | v' :: vs, [], _, _, _, hic => by simp at hic
  | v' :: vs, c :: cs, hnd, i, hi, hic => by
    rw [List.zip_cons_cons]
    cases i with
    | zero => simp [dictLookup_cons]
    | succ i =>
      have hi' : i < vs.length := by simpa using hi
      have hmem : vs[i] ∈ vs := List.get_mem vs i hi'
      have hne : v' ≠ vs[i] := by
        intro hcontra
        exact (List.nodup_cons.mp hnd).1 (hcontra ▸ hmem)
      have ih := dictLookup_zip_getElem vs cs (List.nodup_cons.mp hnd).2
        hi' (by simpa using hic)
      simpa [dictLookup_cons, hne] using ih

theorem dictLookup_zip_map :
    ∀ (vs cl : List Nat) (f : Nat → Nat) {v : Nat},
      dictLookup (vs.zip (cl.map f)) v = (dictLookup (vs.zip cl) v).map f
  | [], _, _, _ => by simp [dictLookup]
  | v' :: vs, [], _, _ => by simp [dictLookup]
  | v' :: vs, c :: cs, f, v => by
    rw [List.map_cons, List.zip_cons_cons, List.zip_cons_cons, dictLookup_cons, dictLookup_cons]
    by_cases hvv : v' = v
    · simp [hvv]
    · simpa [hvv] using dictLookup_zip_map vs cs f

theorem validate_edges_eq_some_true {d : Colouring} :
    ∀ {es : List (Nat × Nat)},
      validate_edges d es = some true ↔
        ∀ e ∈ es, ∃ c1 c2, dictLookup d e.1 = some c1 ∧ dictLookup d e.2 = some c2 ∧ c1 ≠ c2
  | [] => by simp [validate_edges]
  | e :: es => by
    constructor
    · intro h
      simp only [validate_edges] at h
      rcases h1 : dictLookup d e.1 with _ | c1 <;> rw [h1] at h
      · exact absurd h (by simp)
      rcases h2 : dictLookup d e.2 with _ | c2 <;> rw [h2] at h
      · exact absurd h (by simp)
      by_cases hc : c1 = c2
      · simp [hc] at h
      · simp only [if_neg hc] at h
        intro e' he'
        rcases List.mem_cons.mp he' with rfl | he'
        · exact ⟨c1, c2, h1, h2, hc⟩
        · exact validate_edges_eq_some_true.mp h e' he'
    · intro h
      obtain ⟨c1, c2, h1, h2, hc⟩ := h e (by simp)
      have ht : validate_edges d es = some true :=
        validate_edges_eq_some_true.mpr (fun e' he' => h e' (List.mem_cons_of_mem _ he'))
      simp [validate_edges, h1, h2, hc, ht]

theorem validate_edges_isSome {d : Colouring} :
    ∀ (es : List (Nat × Nat)),
      (∀ e ∈ es, (dictLookup d e.1).isSome ∧ (dictLookup d e.2).isSome) →
      (validate_edges d es).isSome
  | [], _ => by simp [validate_edges]
  | e :: es, h => by
    obtain ⟨h1, h2⟩ := h e (by simp)
    rcases Option.isSome_iff_exists.mp h1 with ⟨c1, hc1⟩
    rcases Option.isSome_iff_exists.mp h2 with ⟨c2, hc2⟩
    by_cases hc : c1 = c2
    · simp [validate_edges, hc1, hc2, hc]
    · have ih := validate_edges_isSome es
        (fun e' he' => h e' (List.mem_cons_of_mem _ he'))
      simpa [validate_edges, hc1, hc2, hc] using ih

/-! Lemmas about the shared candidate loop and the two search loops. -/

theorem tryCandidates_nil {G : Graph} : tryCandidates G [] = .ok none := rfl

theorem tryCandidates_cons_dict_err {G : Graph} {cl : List Nat} {rest : List (List Nat)}
    (h1 : colouring_list_to_dict cl G.vertices = none) :
    tryCandidates G (cl :: rest) = .error () := by
  simp [tryCandidates, h1]

theorem tryCandidates_cons_val_err {G : Graph} {cl : List Nat} {rest : List (List Nat)}
    {d : Colouring} (h1 : colouring_list_to_dict cl G.vertices = some d)
    (h2 : validate_colouring G d = none) :
    tryCandidates G (cl :: rest) = .error () := by
  simp [tryCandidates, h1, h2]

theorem tryCandidates_cons_found {G : Graph} {cl : List Nat} {rest : List (List Nat)}
    {d : Colouring} (h1 : colouring_list_to_dict cl G.vertices = some d)
    (h2 : validate_colouring G d = some true) :
    tryCandidates G (cl :: rest) = .ok (some d) := by
  simp [tryCandidates, h1, h2]

theorem tryCandidates_cons_skip {G : Graph} {cl : List Nat} {rest : List (List Nat)}
    {d : Colouring} (h1 : colouring_list_to_dict cl G.vertices = some d)
    (h2 : validate_colouring G d = some false) :
    tryCandidates G (cl :: rest) = tryCandidates G rest := by
  simp [tryCandidates, h1, h2]

theorem tryCandidates_cases {G : Graph} (cl : List Nat) (rest : List (List Nat)) :
    (colouring_list_to_dict cl G.vertices = none ∧ tryCandidates G (cl :: rest) = .error ()) ∨
    (∃ d, colouring_list_to_dict cl G.vertices = some d ∧
      ((validate_colouring G d = none ∧ tryCandidates G (cl :: rest) = .error ()) ∨
       (validate_colouring G d = some true ∧ tryCandidates G (cl :: rest) = .ok (some d)) ∨
       (validate_colouring G d = some false ∧
         tryCandidates G (cl :: rest) = tryCandidates G rest))) := by
  rcases h1 : colouring_list_to_dict cl G.vertices with _ | d
  · exact Or.inl ⟨rfl, tryCandidates_cons_dict_err h1⟩
  · refine Or.inr ⟨d, rfl, ?_⟩
    rcases h2 : validate_colouring G d with _ | b
    · exact Or.inl ⟨rfl, tryCandidates_cons_val_err h1 h2⟩
    · cases b with
      | true => exact Or.inr (Or.inl ⟨rfl, tryCandidates_cons_found h1 h2⟩)
      | false => exact Or.inr (Or.inr ⟨rfl, tryCandidates_cons_skip h1 h2⟩)

theorem tryCandidates_ok_none {G : Graph} :
    ∀ {l : List (List Nat)}, tryCandidates G l = .ok none →
      ∀ cl ∈ l, ∀ d, colouring_list_to_dict cl G.vertices = some d →
        validate_colouring G d = some false
  | [], _, cl, hcl, _, _ => by simp at hcl
  | cl' :: rest, h, cl, hcl, d, hd => by
    rcases tryCandidates_cases (G := G) cl' rest with ⟨h1, he⟩ | ⟨d', h1, hcase⟩
    · rw [he] at h
      exact absurd h (by simp)
    rcases hcase with ⟨h2, he⟩ | ⟨h2, he⟩ | ⟨h2, he⟩
    · rw [he] at h
      exact absurd h (by simp)
    · rw [he] at h
      exact absurd h (by simp)
    · rw [he] at h
      rcases List.mem_cons.mp hcl with rfl | hcl'
      · rw [h1] at hd
        cases Option.some.inj hd
        exact h2
      · exact tryCandidates_ok_none h cl hcl' d hd

theorem tryCandidates_ok_some {G : Graph} :
    ∀ {l : List (List Nat)} {d : Colouring}, tryCandidates G l = .ok (some d) →
      ∃ cl ∈ l, colouring_list_to_dict cl G.vertices = some d ∧
        validate_colouring G d = some true
  | [], _, h => by simp [tryCandidates] at h
  | cl' :: rest, d, h => by
    rcases tryCandidates_cases (G := G) cl' rest with ⟨h1, he⟩ | ⟨d', h1, hcase⟩
    · rw [he] at h
      exact absurd h (by simp)
    rcases hcase with ⟨h2, he⟩ | ⟨h2, he⟩ | ⟨h2, he⟩
    · rw [he] at h
      exact absurd h (by simp)
    · rw [he] at h
      have hd := Option.some.inj (Except.ok.inj h)
      subst hd
      exact ⟨cl', by simp, h1, h2⟩
    · rw [he] at h
      obtain ⟨cl, hcl, hdd, hv⟩ := tryCandidates_ok_some h
      exact ⟨cl, List.mem_cons_of_mem _ hcl, hdd, hv⟩

theorem tryCandidates_ne_error {G : Graph} :
    ∀ {l : List (List Nat)},
      (∀ cl ∈ l, ∃ d, colouring_list_to_dict cl G.vertices = some d ∧
        (validate_colouring G d).isSome) →
      tryCandidates G l ≠ .error ()
  | [], _ => by simp [tryCandidates]
  | cl' :: rest, h => by
    obtain ⟨d', hd', hv'⟩ := h cl' (by simp)
    rcases Option.isSome_iff_exists.mp hv' with ⟨b, hb⟩
    cases b with
    | true => simp [tryCandidates_cons_found hd' hb]
    | false =>
      rw [tryCandidates_cons_skip hd' hb]
      exact tryCandidates_ne_error (fun cl hcl => h cl (List.mem_cons_of_mem _ hcl))

theorem tryCandidates_success {G : Graph} :
    ∀ {l : List (List Nat)},
      (∀ cl ∈ l, ∃ d, colouring_list_to_dict cl G.vertices = some d ∧
        (validate_colouring G d).isSome) →
      ∀ {cl₀ : List Nat} {d₀ : Colouring}, cl₀ ∈ l →
        colouring_list_to_dict cl₀ G.vertices = some d₀ →
        validate_colouring G d₀ = some true →
        ∃ d, tryCandidates G l = .ok (some d)
  | [], _, _, _, hmem, _, _ => by simp at hmem
  | cl' :: rest, h, cl₀, d₀, hmem, hd₀, hv₀ => by
    obtain ⟨d', hd', hv'⟩ := h cl' (by simp)
    rcases Option.isSome_iff_exists.mp hv' with ⟨b, hb⟩
    cases b with
    | true => exact ⟨d', tryCandidates_cons_found hd' hb⟩
    | false =>
      rcases List.mem_cons.mp hmem with rfl | hmem'
      · rw [hd'] at hd₀
        cases Option.some.inj hd₀
        rw [hv₀] at hb
        exact absurd (Option.some.inj hb) (by simp)
      · rw [tryCandidates_cons_skip hd' hb]
        exact tryCandidates_success (fun cl hcl => h cl (List.mem_cons_of_mem _ hcl))
          hmem' hd₀ hv₀

theorem productSearchAux_succ {G : Graph} {k fuel : Nat} :
    productSearchAux G k (fuel + 1) =
      match tryCandidates G (productCandidates k G.vertices.length) with
      | .error _ => .error ()
      | .ok (some d) => .ok (some d)
      | .ok none => productSearchAux G (k + 1) fuel := rfl

theorem productSearchAux_succ_found {G : Graph} {k fuel : Nat} {d : Colouring}
    (h : tryCandidates G (productCandidates k G.vertices.length) = .ok (some d)) :
    productSearchAux G k (fuel + 1) = .ok (some d) := by
  rw [productSearchAux_succ, h]

theorem productSearchAux_succ_skip {G : Graph} {k fuel : Nat}
    (h : tryCandidates G (productCandidates k G.vertices.length) = .ok none) :
    productSearchAux G k (fuel + 1) = productSearchAux G (k + 1) fuel := by
  rw [productSearchAux_succ, h]

theorem productSearchAux_succ_err {G : Graph} {k fuel : Nat}
    (h : tryCandidates G (productCandidates k G.vertices.length) = .error ()) :
    productSearchAux G k (fuel + 1) = .error () := by
  rw [productSearchAux_succ, h]

theorem exceptCases (x : Except Unit (Option Colouring)) :
    x = .error () ∨ x = .ok none ∨ ∃ d, x = .ok (some d) := by
  rcases x with u | od
  · cases u
    exact Or.inl rfl
  · cases od with
    | none => exact Or.inr (Or.inl rfl)
    | some d => exact Or.inr (Or.inr ⟨d, rfl⟩)

theorem productSearchAux_valid {G : Graph} :
    ∀ {fuel k : Nat} {d : Colouring}, productSearchAux G k fuel = .ok (some d) →
      validate_colouring G d = some true
  | 0, _, _, h => by simp [productSearchAux] at h
  | fuel + 1, k, d, h => by
    rcases exceptCases (tryCandidates G (productCandidates k G.vertices.length))
      with h1 | h1 | ⟨d', h1⟩
    · rw [productSearchAux_succ_err h1] at h
      exact absurd h (by simp)
    · rw [productSearchAux_succ_skip h1] at h
      exact productSearchAux_valid h
    · rw [productSearchAux_succ_found h1] at h
      have hd := Option.some.inj (Except.ok.inj h)
      subst hd
      exact (tryCandidates_ok_some h1).choose_spec.2.2

theorem productSearchAux_levels {G : Graph} :
    ∀ {fuel k : Nat} {d : Colouring}, productSearchAux G k fuel = .ok (some d) →
      ∃ k0, k ≤ k0 ∧ k0 < k + fuel ∧
        tryCandidates G (productCandidates k0 G.vertices.length) = .ok (some d) ∧
        ∀ j, k ≤ j → j < k0 →
          tryCandidates G (productCandidates j G.vertices.length) = .ok none
  | 0, _, _, h => by simp [productSearchAux] at h
  | fuel + 1, k, d, h => by
    rcases exceptCases (tryCandidates G (productCandidates k G.vertices.length))
      with h1 | h1 | ⟨d', h1⟩
    · rw [productSearchAux_succ_err h1] at h
      exact absurd h (by simp)
    · rw [productSearchAux_succ_skip h1] at h
      obtain ⟨k0, hk1, hk2, hk3, hk4⟩ := productSearchAux_levels h
      refine ⟨k0, by omega, by omega, hk3, fun j hj1 hj2 => ?_⟩
      rcases Nat.eq_or_lt_of_le hj1 with rfl | hj1'
      · exact h1
      · exact hk4 j hj1' hj2
    · rw [productSearchAux_succ_found h1] at h
      have hd := Option.some.inj (Except.ok.inj h)
      subst hd
      exact ⟨k, le_refl k, by omega, h1, fun j hj1 hj2 => absurd (lt_of_le_of_lt hj1 hj2)
        (lt_irrefl k)⟩

theorem productSearchAux_reaches {G : Graph} :
    ∀ {fuel k : Nat},
      (∀ j, tryCandidates G (productCandidates j G.vertices.length) ≠ .error ()) →
      ∀ {k0 : Nat} {d0 : Colouring},
        tryCandidates G (productCandidates k0 G.vertices.length) = .ok (some d0) →
        k ≤ k0 → k0 < k + fuel →
        ∃ d, productSearchAux G k fuel = .ok (some d)
  | 0, k, _, k0, _, _, h1, h2 => by omega
  | fuel + 1, k, hne, k0, d0, hk0, h1, h2 => by
    rcases exceptCases (tryCandidates G (productCandidates k G.vertices.length))
      with h3 | h3 | ⟨d', h3⟩
    · exact absurd h3 (hne k)
    · have hkne : k ≠ k0 := by
        intro hcontra
        rw [hcontra, hk0] at h3
        exact absurd (Except.ok.inj h3) (by simp)
      obtain ⟨d, hd⟩ :=
        @productSearchAux_reaches G fuel (k + 1) hne k0 d0 hk0 (by omega) (by omega)
      exact ⟨d, by rw [productSearchAux_succ_skip h3]; exact hd⟩
    · exact ⟨d', productSearchAux_succ_found h3⟩

theorem customSearchAux_succ {G : Graph} {k fuel : Nat} :
    customSearchAux G k (fuel + 1) =
      if k ≤ G.vertices.length then
        match tryCandidates G (customCandidates k (create_options k G.vertices.length)) with
        | .error _ => .error ()
        | .ok (some d) => .ok (some d)
        | .ok none => customSearchAux G (k + 1) fuel
      else .ok none := rfl

theorem customSearchAux_succ_found {G : Graph} {k fuel : Nat} {d : Colouring}
    (hk : k ≤ G.vertices.length)
    (h : tryCandidates G (customCandidates k (create_options k G.vertices.length)) =
      .ok (some d)) :
    customSearchAux G k (fuel + 1) = .ok (some d) := by
  rw [customSearchAux_succ, if_pos hk, h]

theorem customSearchAux_succ_skip {G : Graph} {k fuel : Nat}
    (hk : k ≤ G.vertices.length)
    (h : tryCandidates G (customCandidates k (create_options k G.vertices.length)) =
      .ok none) :
    customSearchAux G k (fuel + 1) = customSearchAux G (k + 1) fuel := by
  rw [customSearchAux_succ, if_pos hk, h]

theorem customSearchAux_succ_err {G : Graph} {k fuel : Nat}
    (hk : k ≤ G.vertices.length)
    (h : tryCandidates G (customCandidates k (create_options k G.vertices.length)) =
      .error ()) :
    customSearchAux G k (fuel + 1) = .error () := by
  rw [customSearchAux_succ, if_pos hk, h]

theorem customSearchAux_succ_guard {G : Graph} {k fuel : Nat}
    (hk : ¬ k ≤ G.vertices.length) :
    customSearchAux G k (fuel + 1) = .ok none := by
  rw [customSearchAux_succ, if_neg hk]

theorem customSearchAux_valid {G : Graph} :
    ∀ {fuel k : Nat} {d : Colouring}, customSearchAux G k fuel = .ok (some d) →
      validate_colouring G d = some true
  | 0, _, _, h => by simp [customSearchAux] at h
  | fuel + 1, k, d, h => by
    by_cases hk : k ≤ G.vertices.length
    · rcases exceptCases
        (tryCandidates G (customCandidates k (create_options k G.vertices.length)))
        with h1 | h1 | ⟨d', h1⟩
      · rw [customSearchAux_succ_err hk h1] at h
        exact absurd h (by simp)
      · rw [customSearchAux_succ_skip hk h1] at h
        exact customSearchAux_valid h
      · rw [customSearchAux_succ_found hk h1] at h
        have hd := Option.some.inj (Except.ok.inj h)
        subst hd
        exact (tryCandidates_ok_some h1).choose_spec.2.2
    · rw [customSearchAux_succ_guard hk] at h
      exact absurd (Except.ok.inj h) (by simp)

theorem customSearchAux_levels {G : Graph} :
    ∀ {fuel k : Nat} {d : Colouring}, customSearchAux G k fuel = .ok (some d) →
      ∃ k0, k ≤ k0 ∧ k0 < k + fuel ∧ k0 ≤ G.vertices.length ∧
        tryCandidates G (customCandidates k0 (create_options k0 G.vertices.length)) =
          .ok (some d) ∧
        ∀ j, k ≤ j → j < k0 →
          tryCandidates G (customCandidates j (create_options j G.vertices.length)) = .ok none
  | 0, _, _, h => by simp [customSearchAux] at h
  | fuel + 1, k, d, h => by
    by_cases hk : k ≤ G.vertices.length
    · rcases exceptCases
        (tryCandidates G (customCandidates k (create_options k G.vertices.length)))
        with h1 | h1 | ⟨d', h1⟩
      · rw [customSearchAux_succ_err hk h1] at h
        exact absurd h (by simp)
      · rw [customSearchAux_succ_skip hk h1] at h
        obtain ⟨k0, hk1, hk2, hk3, hk4, hk5⟩ := customSearchAux_levels h
        refine ⟨k0, by omega, by omega, hk3, hk4, fun j hj1 hj2 => ?_⟩
        rcases Nat.eq_or_lt_of_le hj1 with rfl | hj1'
        · exact h1
        · exact hk5 j hj1' hj2
      · rw [customSearchAux_succ_found hk h1] at h
        have hd := Option.some.inj (Except.ok.inj h)
        subst hd
        exact ⟨k, le_refl k, by omega, hk, h1, fun j hj1 hj2 => absurd (lt_of_le_of_lt hj1 hj2)
          (lt_irrefl k)⟩
    · rw [customSearchAux_succ_guard hk] at h
      exact absurd (Except.ok.inj h) (by simp)

theorem customSearchAux_reaches {G : Graph} :
    ∀ {fuel k : Nat},
      (∀ j, j ≤ G.vertices.length →
        tryCandidates G (customCandidates j (create_options j G.vertices.length)) ≠
          .error ()) →
      ∀ {k0 : Nat} {d0 : Colouring}, k0 ≤ G.vertices.length →
        tryCandidates G (customCandidates k0 (create_options k0 G.vertices.length)) =
          .ok (some d0) →
        k ≤ k0 → k0 < k + fuel →
        ∃ d, customSearchAux G k fuel = .ok (some d)
  | 0, k, _, k0, _, _, _, h1, h2 => by omega
  | fuel + 1, k, hne, k0, d0, hk0n, hk0, h1, h2 => by
    have hk : k ≤ G.vertices.length := le_trans h1 hk0n
    rcases exceptCases
      (tryCandidates G (customCandidates k (create_options k G.vertices.length)))
      with h3 | h3 | ⟨d', h3⟩
    · exact absurd h3 (hne k hk)
    · have hkne : k ≠ k0 := by
        intro hcontra
        rw [hcontra, hk0] at h3
        exact absurd (Except.ok.inj h3) (by simp)
      obtain ⟨d, hd⟩ :=
        @customSearchAux_reaches G fuel (k + 1) hne k0 d0 hk0n hk0 (by omega) (by omega)
      exact ⟨d, by rw [customSearchAux_succ_skip hk h3]; exact hd⟩
    · exact ⟨d', customSearchAux_succ_found hk h3⟩

/-! Well-formedness consequences and the guaranteed level-`n` success. -/

theorem mem_productCandidates {k n : Nat} {cl : List Nat} :
    cl ∈ productCandidates k n ↔ (cl.length = n ∧ ∀ x ∈ cl, x < k) ∧ (k - 1) ∈ cl := by
  simp [productCandidates, List.mem_filter, mem_allSeqs]

theorem WF_no_error {G : Graph} (hWF : G.WF) {cl : List Nat}
    (hlen : cl.length = G.vertices.length) :
    ∃ d, colouring_list_to_dict cl G.vertices = some d ∧ (validate_colouring G d).isSome := by
  refine ⟨G.vertices.zip cl, colouring_list_to_dict_eq_zip cl G.vertices (le_of_eq hlen), ?_⟩
  apply validate_edges_isSome
  intro e he
  obtain ⟨h1, h2, _⟩ := hWF.2 e he
  exact ⟨dictLookup_zip_isSome G.vertices cl (le_of_eq hlen.symm) h1,
    dictLookup_zip_isSome G.vertices cl (le_of_eq hlen.symm) h2⟩

theorem productTry_ne_error {G : Graph} (hWF : G.WF) (k : Nat) :
    tryCandidates G (productCandidates k G.vertices.length) ≠ .error () :=
  tryCandidates_ne_error (fun _ hcl => WF_no_error hWF (mem_productCandidates.mp hcl).1.1)

theorem validate_range_valid {G : Graph} (hWF : G.WF) :
    validate_colouring G (G.vertices.zip (List.range G.vertices.length)) = some true := by
  apply validate_edges_eq_some_true.mpr
  intro e he
  obtain ⟨h1, h2, hne⟩ := hWF.2 e he
  obtain ⟨i, hi⟩ := List.mem_iff_get.mp h1
  obtain ⟨j, hj⟩ := List.mem_iff_get.mp h2
  have hlen : (List.range G.vertices.length).length = G.vertices.length := by simp
  have hil : (i : Nat) < (List.range G.vertices.length).length := by
    rw [hlen]; exact i.isLt
  have hjl : (j : Nat) < (List.range G.vertices.length).length := by
    rw [hlen]; exact j.isLt
  have hli := dictLookup_zip_getElem G.vertices (List.range G.vertices.length) hWF.1 i.isLt hil
  have hlj := dictLookup_zip_getElem G.vertices (List.range G.vertices.length) hWF.1 j.isLt hjl
  rw [show G.vertices.get ⟨(i : Nat), i.isLt⟩ = G.vertices.get i from rfl] at hli
  rw [show G.vertices.get ⟨(j : Nat), j.isLt⟩ = G.vertices.get j from rfl] at hlj
  rw [hi] at hli
  rw [hj] at hlj
  refine ⟨(List.range G.vertices.length).get ⟨(i : Nat), hil⟩,
    (List.range G.vertices.length).get ⟨(j : Nat), hjl⟩, hli, hlj, ?_⟩
  intro hcontra
  apply hne
  have hij : (i : Nat) = (j : Nat) := by
    have hgi : (List.range G.vertices.length).get ⟨(i : Nat), hil⟩ = (i : Nat) := by simp
    have hgj : (List.range G.vertices.length).get ⟨(j : Nat), hjl⟩ = (j : Nat) := by simp
    rw [hgi, hgj] at hcontra
    exact hcontra
  rw [← hi, ← hj]
  congr 1
  exact Fin.ext hij

theorem range_mem_productCandidates {n : Nat} (hn : 1 ≤ n) :
    List.range n ∈ productCandidates n n := by
  apply mem_productCandidates.mpr
  refine ⟨⟨by simp, fun x hx => List.mem_range.mp hx⟩, ?_⟩
  exact List.mem_range.mpr (by omega)

theorem product_level_n_success {G : Graph} (hWF : G.WF) (hn : 1 ≤ G.vertices.length) :
    ∃ d, tryCandidates G (productCandidates G.vertices.length G.vertices.length) =
      .ok (some d) := by
  apply tryCandidates_success
    (fun cl hcl => WF_no_error hWF (mem_productCandidates.mp hcl).1.1)
    (range_mem_productCandidates hn)
    (colouring_list_to_dict_eq_zip (List.range G.vertices.length) G.vertices (by simp))
  exact validate_range_valid hWF

/-! Lemmas about `create_options`, `colouring_generator` and the
mixed-radix encoding. -/

theorem length_create_options {k n : Nat} (h : k ≤ n) :
    (create_options k n).length = n := by
  simp only [create_options, List.length_append, List.length_range', List.length_replicate]
  omega

theorem getD_create_options {k n i : Nat} (hk : k ≤ n) (hi : i < n) :
    (create_options k n).getD i 0 = min (i + 1) k := by
  rw [create_options, List.getD_eq_getElem?_getD]
  by_cases hik : i < k
  · rw [List.getElem?_append_left (by simpa using hik)]
    rw [List.getElem?_range' 1 1 hik]
    simp only [Option.getD_some]
    omega
  · rw [List.getElem?_append_right (by simpa using hik)]
    rw [show (List.range' 1 k).length = k from by simp]
    rw [List.getElem?_replicate_of_lt (by omega)]
    simp only [Option.getD_some]
    omega

theorem create_options_pos {k n : Nat} (hk : 1 ≤ k) {b : Nat}
    (hb : b ∈ create_options k n) : 0 < b := by
  rw [create_options] at hb
  rcases List.mem_append.mp hb with h | h
  · obtain ⟨i, hi, hm⟩ := List.mem_range'.mp h
    omega
  · rw [List.eq_of_mem_replicate h]
    exact hk

theorem prod_range_one_eq_factorial : ∀ (k : Nat), (List.range' 1 k).prod = Nat.factorial k
  | 0 => by simp [Nat.factorial]
  | k + 1 => by
    rw [List.range'_concat, List.prod_append, prod_range_one_eq_factorial k]
    simp only [List.prod_cons, List.prod_nil, Nat.factorial_succ]
    ring

theorem prod_create_options {k n : Nat} :
    (create_options k n).prod = Nat.factorial k * k ^ (n - k) := by
  rw [create_options, List.prod_append, prod_range_one_eq_factorial, List.prod_replicate]

theorem factorial_lt_pow_self : ∀ {k : Nat}, 2 ≤ k → Nat.factorial k < k ^ k := by
  intro k hk
  induction k with
  | zero => omega
  | succ k ih =>
    rcases Nat.lt_or_ge k 2 with h2 | h2
    · have hk1 : k = 1 := by omega
      subst hk1
      decide
    · have ih' := ih h2
      calc Nat.factorial (k + 1) = (k + 1) * Nat.factorial k := Nat.factorial_succ k
        _ < (k + 1) * k ^ k := by
            have h1 : (k + 1) * (Nat.factorial k + 1) ≤ (k + 1) * k ^ k :=
              Nat.mul_le_mul_left (k + 1) (by omega)
            have h2' : (k + 1) * (Nat.factorial k + 1) =
                (k + 1) * Nat.factorial k + (k + 1) := by ring
            omega
        _ ≤ (k + 1) * (k + 1) ^ k :=
            Nat.mul_le_mul_left (k + 1) (Nat.pow_le_pow_left (by omega) k)
        _ = (k + 1) ^ (k + 1) := by
            rw [pow_succ]
            ring

theorem length_colouring_generator_aux :
    ∀ (i : Nat) (l : List Nat), (colouring_generator_aux i l).length = l.length
  | _, [] => rfl
  | i, b :: rest => by
    simp [colouring_generator_aux, length_colouring_generator_aux (i / b) rest]

theorem length_colouring_generator (i : Nat) (options : List Nat) :
    (colouring_generator i options).length = options.length := by
  simp [colouring_generator, length_colouring_generator_aux]

theorem getD_reverse {l : List Nat} {j : Nat} (hj : j < l.length) :
    l.reverse.getD j 0 = l.getD (l.length - 1 - j) 0 := by
  have h1 : j < l.reverse.length := by simpa using hj
  have h2 : l.length - 1 - j < l.length := by omega
  rw [List.getD_eq_getElem?_getD, List.getD_eq_getElem?_getD,
    List.getElem?_eq_getElem h1, List.getElem?_eq_getElem h2]
  simp

theorem getD_colouring_generator_aux :
    ∀ (i : Nat) (l : List Nat) (j : Nat), j < l.length →
      (colouring_generator_aux i l).getD j 0 = (i / (l.take j).prod) % l.getD j 0
  | _, [], j, hj => by simp at hj
  | i, b :: rest, 0, _ => by simp [colouring_generator_aux]
  | i, b :: rest, j + 1, hj => by
    have ih := getD_colouring_generator_aux (i / b) rest j (by simpa using hj)
    simp only [colouring_generator_aux, List.getD_cons_succ, List.take_succ_cons,
      List.prod_cons]
    rw [ih, Nat.div_div_eq_div_mul]

theorem getD_colouring_generator {i : Nat} {options : List Nat} {j : Nat}
    (hj : j < options.length) :
    (colouring_generator i options).getD j 0 =
      (i / (options.drop (j + 1)).prod) % options.getD j 0 := by
  have hlen : (colouring_generator_aux i options.reverse).length = options.length := by
    simp [length_colouring_generator_aux]
  rw [colouring_generator, getD_reverse (by rw [hlen]; exact hj), hlen]
  rw [getD_colouring_generator_aux i options.reverse (options.length - 1 - j)
    (by simp; omega)]
  congr 1
  · congr 1
    rw [List.take_reverse, List.prod_reverse]
    congr 2
    omega
  · rw [getD_reverse (show options.length - 1 - j < options.length from by omega)]
    congr 1
    omega

theorem colouring_generator_aux_max :
    ∀ (l : List Nat), (∀ b ∈ l, 0 < b) →
      colouring_generator_aux (l.prod - 1) l = l.map (fun b => b - 1)
  | [], _ => rfl
  | b :: rest, h => by
    have hb : 0 < b := h b (by simp)
    have hrest : 0 < rest.prod := List.prod_pos (fun a ha => h a (List.mem_cons_of_mem _ ha))
    simp only [colouring_generator_aux, List.prod_cons, List.map_cons]
    have e1 : b * rest.prod - 1 = b * (rest.prod - 1) + (b - 1) := by
      calc b * rest.prod - 1 = b * ((rest.prod - 1) + 1) - 1 := by
            congr 2
            omega
        _ = (b * (rest.prod - 1) + b) - 1 := by rw [Nat.mul_add, Nat.mul_one]
        _ = b * (rest.prod - 1) + (b - 1) := by omega
    have e2 : (b * rest.prod - 1) % b = b - 1 := by
      rw [e1, Nat.mul_add_mod, Nat.mod_eq_of_lt (by omega)]
    have e3 : (b * rest.prod - 1) / b = rest.prod - 1 := by
      rw [e1, Nat.mul_add_div hb, Nat.div_eq_of_lt (by omega)]
      omega
    rw [e2, e3, colouring_generator_aux_max rest
      (fun a ha => h a (List.mem_cons_of_mem _ ha))]

theorem colouring_generator_max {options : List Nat} (h : ∀ b ∈ options, 0 < b) :
    colouring_generator (options.prod - 1) options = options.map (fun b => b - 1) := by
  rw [colouring_generator,
    show options.prod = options.reverse.prod from (List.prod_reverse options).symm,
    colouring_generator_aux_max options.reverse (fun b hb => h b (by simpa using hb)),
    List.map_reverse, List.reverse_reverse]

theorem colouring_generator_aux_encode :
    ∀ (ds bs : List Nat), ds.length = bs.length →
      (∀ j, j < ds.length → ds.getD j 0 < bs.getD j 0) →
      colouring_generator_aux (mixedEncodeLE ds bs) bs = ds
  | [], [], _, _ => rfl
  | [], b :: bs, h, _ => by simp at h
  | d :: ds, [], h, _ => by simp at h
  | d :: ds, b :: bs, h, hb => by
    have hd : d < b := by
      have := hb 0 (by simp)
      simpa using this
    simp only [mixedEncodeLE, colouring_generator_aux]
    have e1 : (d + b * mixedEncodeLE ds bs) % b = d := by
      rw [Nat.add_mul_mod_self_left, Nat.mod_eq_of_lt hd]
    have e2 : (d + b * mixedEncodeLE ds bs) / b = mixedEncodeLE ds bs := by
      rw [Nat.add_mul_div_left _ _ (by omega), Nat.div_eq_of_lt hd]
      omega
    rw [e1, e2, colouring_generator_aux_encode ds bs (by simpa using h)
      (fun j hj => by
        have := hb (j + 1) (by simpa using Nat.succ_lt_succ hj)
        simpa using this)]

theorem mixedEncodeLE_lt :
    ∀ (ds bs : List Nat), ds.length = bs.length → (∀ b ∈ bs, 0 < b) →
      (∀ j, j < ds.length → ds.getD j 0 < bs.getD j 0) →
      mixedEncodeLE ds bs < bs.prod
  | [], [], _, _, _ => by simp [mixedEncodeLE]
  | [], b :: bs, h, _, _ => by simp at h
  | d :: ds, [], h, _, _ => by simp at h
  | d :: ds, b :: bs, h, hpos, hb => by
    have hd : d < b := by
      have := hb 0 (by simp)
      simpa using this
    have ih := mixedEncodeLE_lt ds bs (by simpa using h)
      (fun a ha => hpos a (List.mem_cons_of_mem _ ha))
      (fun j hj => by
        have := hb (j + 1) (by simpa using Nat.succ_lt_succ hj)
        simpa using this)
    simp only [mixedEncodeLE, List.prod_cons]
    have h2 : b * (mixedEncodeLE ds bs + 1) ≤ b * bs.prod :=
      Nat.mul_le_mul_left b (Nat.succ_le_of_lt ih)
    have h3 : b * mixedEncodeLE ds bs + b ≤ b * bs.prod := by
      rw [← Nat.mul_succ]
      exact h2
    omega

theorem exists_counter {cl options : List Nat} (hlen : cl.length = options.length)
    (hpos : ∀ b ∈ options, 0 < b)
    (hb : ∀ j, j < cl.length → cl.getD j 0 < options.getD j 0) :
    ∃ c, c < number_colourings options ∧ colouring_generator c options = cl := by
  have hrevlen : cl.reverse.length = options.reverse.length := by simp [hlen]
  have hrevb : ∀ j, j < cl.reverse.length →
      cl.reverse.getD j 0 < options.reverse.getD j 0 := by
    intro j hj
    have hj' : j < cl.length := by simpa using hj
    rw [getD_reverse hj', getD_reverse (show j < options.length from by omega)]
    rw [show options.length - 1 - j = cl.length - 1 - j from by omega]
    exact hb (cl.length - 1 - j) (by omega)
  refine ⟨mixedEncodeLE cl.reverse options.reverse, ?_, ?_⟩
  · rw [number_colourings_eq_prod, ← List.prod_reverse]
    exact mixedEncodeLE_lt cl.reverse options.reverse hrevlen
      (fun b hb' => hpos b (by simpa using hb')) hrevb
  · rw [colouring_generator,
      colouring_generator_aux_encode cl.reverse options.reverse hrevlen hrevb,
      List.reverse_reverse]

/-! Lemmas about `distinctsInOrder`, `rankOf` and canonical relabelling. -/

theorem getD_mem {l : List Nat} {j : Nat} (hj : j < l.length) : l.getD j 0 ∈ l := by
  rw [List.getD_eq_getElem?_getD, List.getElem?_eq_getElem hj]
  simp only [Option.getD_some]
  exact List.get_mem l j hj

theorem getD_map (f : Nat → Nat) {l : List Nat} {i : Nat} (hi : i < l.length) :
    (l.map f).getD i 0 = f (l.getD i 0) := by
  rw [List.getD_eq_getElem?_getD, List.getD_eq_getElem?_getD, List.getElem?_map,
    List.getElem?_eq_getElem hi]
  simp

theorem mem_distinctsInOrder : ∀ {l : List Nat} {x : Nat}, x ∈ distinctsInOrder l ↔ x ∈ l
  | [], x => by simp [distinctsInOrder]
  | y :: ys, x => by
    simp only [distinctsInOrder, List.mem_cons, List.mem_filter]
    constructor
    · rintro (rfl | ⟨hmem, _⟩)
      · exact Or.inl rfl
      · exact Or.inr (mem_distinctsInOrder.mp hmem)
    · rintro (rfl | hx)
      · exact Or.inl rfl
      · by_cases hxy : x = y
        · exact Or.inl hxy
        · exact Or.inr ⟨mem_distinctsInOrder.mpr hx, by simpa using hxy⟩

theorem nodup_distinctsInOrder : ∀ (l : List Nat), (distinctsInOrder l).Nodup
  | [] => List.nodup_nil
  | y :: ys => by
    simp only [distinctsInOrder]
    refine List.nodup_cons.mpr ⟨?_, List.Nodup.filter _ (nodup_distinctsInOrder ys)⟩
    intro hmem
    have := (List.mem_filter.mp hmem).2
    simp at this

theorem length_distinctsInOrder_le : ∀ (l : List Nat), (distinctsInOrder l).length ≤ l.length
  | [] => le_refl 0
  | y :: ys => by
    simp only [distinctsInOrder, List.length_cons]
    have h1 := List.length_filter_le (fun z => decide (z ≠ y)) (distinctsInOrder ys)
    have h2 := length_distinctsInOrder_le ys
    omega

theorem length_distinctsInOrder_pos {l : List Nat} (h : l ≠ []) :
    0 < (distinctsInOrder l).length := by
  cases l with
  | nil => exact absurd rfl h
  | cons y ys => simp [distinctsInOrder]

theorem distinctsInOrder_of_nodup : ∀ {l : List Nat}, l.Nodup → distinctsInOrder l = l
  | [], _ => rfl
  | y :: ys, h => by
    simp only [distinctsInOrder]
    rw [distinctsInOrder_of_nodup (List.nodup_cons.mp h).2]
    congr 1
    apply List.filter_eq_self.mpr
    intro a ha
    simp only [decide_eq_true_eq]
    intro hcontra
    exact (List.nodup_cons.mp h).1 (hcontra ▸ ha)

theorem length_distinctsInOrder_le_of_lt {l : List Nat} {k : Nat} (h : ∀ x ∈ l, x < k) :
    (distinctsInOrder l).length ≤ k := by
  have hsub : distinctsInOrder l ⊆ List.range k := by
    intro x hx
    exact List.mem_range.mpr (h x (mem_distinctsInOrder.mp hx))
  have := (List.subperm_of_subset (nodup_distinctsInOrder l) hsub).length_le
  simpa using this

theorem rankOf_lt_length : ∀ {l : List Nat} {x : Nat}, x ∈ l → rankOf x l < l.length
  | [], x, h => by simp at h
  | y :: ys, x, h => by
    by_cases hxy : y = x
    · simp [rankOf, hxy]
    · rw [rankOf, if_neg hxy]
      have hx : x ∈ ys := by
        rcases List.mem_cons.mp h with rfl | h'
        · exact absurd rfl hxy
        · exact h'
      simp only [List.length_cons]
      exact Nat.succ_lt_succ (rankOf_lt_length hx)

theorem getD_rankOf : ∀ {l : List Nat} {x : Nat}, x ∈ l → l.getD (rankOf x l) 0 = x
  | [], x, h => by simp at h
  | y :: ys, x, h => by
    by_cases hxy : y = x
    · simp [rankOf, hxy]
    · rw [rankOf, if_neg hxy]
      simp only [List.getD_cons_succ]
      have hx : x ∈ ys := by
        rcases List.mem_cons.mp h with rfl | h'
        · exact absurd rfl hxy
        · exact h'
      exact getD_rankOf hx

theorem rankOf_getD_of_nodup : ∀ {l : List Nat}, l.Nodup → ∀ {j : Nat}, j < l.length →
    rankOf (l.getD j 0) l = j
  | [], _, j, hj => by simp at hj
  | y :: ys, _, 0, _ => by simp [rankOf]
  | y :: ys, h, j + 1, hj => by
    have hj' : j < ys.length := by simpa using hj
    have hne : y ≠ ys.getD j 0 := by
      intro hcontra
      exact (List.nodup_cons.mp h).1 (hcontra ▸ getD_mem hj')
    rw [List.getD_cons_succ, rankOf, if_neg hne,
      rankOf_getD_of_nodup (List.nodup_cons.mp h).2 hj']

theorem rankOf_inj {l : List Nat} {x y : Nat} (hx : x ∈ l) (hy : y ∈ l)
    (h : rankOf x l = rankOf y l) : x = y := by
  have h1 := getD_rankOf hx
  have h2 := getD_rankOf hy
  rw [← h1, ← h2, h]

theorem rankOf_filter_le {x : Nat} {p : Nat → Bool} (hp : p x = true) :
    ∀ (l : List Nat), rankOf x (l.filter p) ≤ rankOf x l
  | [] => le_refl _
  | y :: ys => by
    by_cases hxy : y = x
    · subst hxy
      rw [List.filter_cons_of_pos hp, rankOf, if_pos rfl]
      omega
    · cases hpy : p y with
      | false =>
        rw [List.filter_cons_of_neg (by simp [hpy]), rankOf, if_neg hxy]
        have := rankOf_filter_le hp ys
        omega
      | true =>
        rw [List.filter_cons_of_pos hpy, rankOf, if_neg hxy, rankOf, if_neg hxy]
        have := rankOf_filter_le hp ys
        omega

theorem length_canonicalize (cl : List Nat) : (canonicalize cl).length = cl.length := by
  simp [canonicalize]

theorem mem_canonicalize_lt {cl : List Nat} {x : Nat} (hx : x ∈ canonicalize cl) :
    x < (distinctsInOrder cl).length := by
  obtain ⟨a, ha, rfl⟩ := List.mem_map.mp hx
  exact rankOf_lt_length (mem_distinctsInOrder.mpr ha)

theorem mem_canonicalize_of_lt {cl : List Nat} {j : Nat}
    (hj : j < (distinctsInOrder cl).length) : j ∈ canonicalize cl := by
  have hmem : (distinctsInOrder cl).getD j 0 ∈ distinctsInOrder cl := getD_mem hj
  have hmem' : (distinctsInOrder cl).getD j 0 ∈ cl := mem_distinctsInOrder.mp hmem
  have hr : rankOf ((distinctsInOrder cl).getD j 0) (distinctsInOrder cl) = j :=
    rankOf_getD_of_nodup (nodup_distinctsInOrder cl) hj
  exact List.mem_map.mpr ⟨(distinctsInOrder cl).getD j 0, hmem', hr⟩

theorem rankOf_getD_distinctsInOrder_le :
    ∀ (l : List Nat) (i : Nat), i < l.length → rankOf (l.getD i 0) (distinctsInOrder l) ≤ i
  | [], i, hi => by simp at hi
  | x :: xs, 0, _ => by simp [distinctsInOrder, rankOf]
  | x :: xs, i + 1, hi => by
    rw [List.getD_cons_succ]
    simp only [distinctsInOrder]
    by_cases hxz : x = xs.getD i 0
    · rw [rankOf, if_pos hxz]
      omega
    · rw [rankOf, if_neg hxz]
      have h1 := rankOf_filter_le (p := fun y => decide (y ≠ x))
        (by simp; exact fun hcontra => hxz hcontra.symm) (distinctsInOrder xs)
      have h2 := rankOf_getD_distinctsInOrder_le xs i (by simpa using hi)
      omega

theorem canonicalize_getD_le {cl : List Nat} {i : Nat} (hi : i < cl.length) :
    (canonicalize cl).getD i 0 ≤ i := by
  rw [canonicalize, getD_map _ hi]
  exact rankOf_getD_distinctsInOrder_le cl i hi

theorem canonicalize_getD_lt {cl : List Nat} {i : Nat} (hi : i < cl.length) :
    (canonicalize cl).getD i 0 < (distinctsInOrder cl).length := by
  apply mem_canonicalize_lt
  have : i < (canonicalize cl).length := by
    rw [length_canonicalize]
    exact hi
  exact getD_mem this

theorem length_distinctsInOrder_canonicalize (cl : List Nat) :
    (distinctsInOrder (canonicalize cl)).length = (distinctsInOrder cl).length := by
  have h1 : distinctsInOrder (canonicalize cl) ⊆
      List.range (distinctsInOrder cl).length := by
    intro x hx
    exact List.mem_range.mpr (mem_canonicalize_lt (mem_distinctsInOrder.mp hx))
  have h2 : List.range (distinctsInOrder cl).length ⊆ distinctsInOrder (canonicalize cl) := by
    intro j hj
    exact mem_distinctsInOrder.mpr (mem_canonicalize_of_lt (List.mem_range.mp hj))
  have hle1 := (List.subperm_of_subset (nodup_distinctsInOrder _) h1).length_le
  have hle2 := (List.subperm_of_subset (List.nodup_range _) h2).length_le
  simp only [List.length_range] at hle1 hle2
  omega

theorem validateSeq_of_dict {G : Graph} {cl : List Nat} {d : Colouring}
    (h : colouring_list_to_dict cl G.vertices = some d) :
    validateSeq G cl = validate_colouring G d := by
  simp [validateSeq, h]

theorem canonicalize_valid {G : Graph} {cl : List Nat}
    (hlen : cl.length ≤ G.vertices.length)
    (hv : validateSeq G cl = some true) :
    validateSeq G (canonicalize cl) = some true := by
  rw [validateSeq_of_dict (colouring_list_to_dict_eq_zip (canonicalize cl) G.vertices
    (by rw [length_canonicalize]; exact hlen))]
  rw [validateSeq_of_dict (colouring_list_to_dict_eq_zip cl G.vertices hlen)] at hv
  apply validate_edges_eq_some_true.mpr
  intro e he
  obtain ⟨c1, c2, h1, h2, hc⟩ := validate_edges_eq_some_true.mp hv e he
  refine ⟨rankOf c1 (distinctsInOrder cl), rankOf c2 (distinctsInOrder cl), ?_, ?_, ?_⟩
  · rw [canonicalize, dictLookup_zip_map G.vertices cl _, h1]
    rfl
  · rw [canonicalize, dictLookup_zip_map G.vertices cl _, h2]
    rfl
  · intro hcontra
    exact hc (rankOf_inj
      (mem_distinctsInOrder.mpr (dictLookup_zip_mem G.vertices cl h1))
      (mem_distinctsInOrder.mpr (dictLookup_zip_mem G.vertices cl h2)) hcontra)

/-! Custom-search candidate set and guaranteed success of both searches. -/

theorem mem_customCandidates {k : Nat} {options cl : List Nat} :
    cl ∈ customCandidates k options ↔
      (∃ c < number_colourings options, colouring_generator c options = cl) ∧
        check_all_colours_in_colouring_list k cl = true := by
  simp [customCandidates, List.mem_filter, List.mem_map, List.mem_range]

theorem custom_no_error_fun {G : Graph} (hWF : G.WF) {k : Nat} (hk : k ≤ G.vertices.length) :
    ∀ cl ∈ customCandidates k (create_options k G.vertices.length),
      ∃ d, colouring_list_to_dict cl G.vertices = some d ∧
        (validate_colouring G d).isSome := by
  intro cl hcl
  obtain ⟨⟨c, _, hgen⟩, _⟩ := mem_customCandidates.mp hcl
  exact WF_no_error hWF (by rw [← hgen, length_colouring_generator, length_create_options hk])

theorem customTry_ne_error {G : Graph} (hWF : G.WF) {k : Nat} (hk : k ≤ G.vertices.length) :
    tryCandidates G (customCandidates k (create_options k G.vertices.length)) ≠ .error () :=
  tryCandidates_ne_error (custom_no_error_fun hWF hk)

theorem create_options_self (n : Nat) : create_options n n = List.range' 1 n := by
  simp [create_options]

theorem range_eq_map_sub_one (n : Nat) :
    (List.range' 1 n).map (fun b => b - 1) = List.range n := by
  rw [List.range'_eq_map_range, List.map_map]
  have h : ((fun b => b - 1) ∘ (fun i => 1 + i)) = id := by
    funext i
    simp
  rw [h, List.map_id]

theorem check_all_colours_range (n : Nat) :
    check_all_colours_in_colouring_list n (List.range n) = true := by
  rw [check_all_colours_in_colouring_list, distinctsInOrder_of_nodup (List.nodup_range n)]
  simp

theorem custom_level_n_success {G : Graph} (hWF : G.WF) (hn : 1 ≤ G.vertices.length) :
    ∃ d, tryCandidates G (customCandidates G.vertices.length
      (create_options G.vertices.length G.vertices.length)) = .ok (some d) := by
  have hpos : ∀ b ∈ create_options G.vertices.length G.vertices.length, 0 < b :=
    fun b hb => create_options_pos (by omega) hb
  have hNpos : 0 < number_colourings
      (create_options G.vertices.length G.vertices.length) := by
    rw [number_colourings_eq_prod]
    exact List.prod_pos hpos
  have hgen : colouring_generator
      (number_colourings (create_options G.vertices.length G.vertices.length) - 1)
      (create_options G.vertices.length G.vertices.length) =
      List.range G.vertices.length := by
    rw [number_colourings_eq_prod, colouring_generator_max hpos, create_options_self,
      range_eq_map_sub_one]
  have hmem : List.range G.vertices.length ∈
      customCandidates G.vertices.length
        (create_options G.vertices.length G.vertices.length) := by
    apply mem_customCandidates.mpr
    exact ⟨⟨number_colourings (create_options G.vertices.length G.vertices.length) - 1,
      by omega, hgen⟩, check_all_colours_range G.vertices.length⟩
  apply tryCandidates_success (custom_no_error_fun hWF (le_refl _)) hmem
    (colouring_list_to_dict_eq_zip (List.range G.vertices.length) G.vertices (by simp))
  exact validate_range_valid hWF

theorem product_succeeds {G : Graph} (hWF : G.WF) (hn : 1 ≤ G.vertices.length)
    {fuel : Nat} (hfuel : G.vertices.length ≤ fuel) :
    ∃ d, product_brute_force_colouring G fuel = .ok (some d) := by
  obtain ⟨d0, hd0⟩ := product_level_n_success hWF hn
  exact productSearchAux_reaches (fun j => productTry_ne_error hWF j) hd0 (by omega)
    (by omega)

theorem custom_succeeds {G : Graph} (hWF : G.WF) (hn : 1 ≤ G.vertices.length) :
    ∃ d, custom_brute_force_colouring G = .ok (some d) := by
  obtain ⟨d0, hd0⟩ := custom_level_n_success hWF hn
  exact customSearchAux_reaches (fun j hj => customTry_ne_error hWF hj) (le_refl _) hd0
    (by omega) (by omega)

/-! The least colourable colour count, and what failed search levels imply. -/

theorem colourableWithB_iff {G : Graph} {k : Nat} :
    colourableWithB G k = true ↔
      ∃ cl, cl.length = G.vertices.length ∧ (∀ x ∈ cl, x < k) ∧
        validateSeq G cl = some true := by
  rw [colourableWithB, List.any_eq_true]
  constructor
  · rintro ⟨cl, hmem, hval⟩
    obtain ⟨hlen, hlt⟩ := mem_allSeqs.mp hmem
    exact ⟨cl, hlen, hlt, by simpa using hval⟩
  · rintro ⟨cl, hlen, hlt, hval⟩
    exact ⟨cl, mem_allSeqs.mpr ⟨hlen, hlt⟩, by simp [hval]⟩

theorem colourableWithB_zero {G : Graph} (hn : 1 ≤ G.vertices.length) :
    colourableWithB G 0 = false := by
  rw [Bool.eq_false_iff]
  intro h
  obtain ⟨cl, hlen, hlt, _⟩ := colourableWithB_iff.mp h
  cases cl with
  | nil => simp at hlen; omega
  | cons x xs => exact absurd (hlt x (by simp)) (by omega)

theorem minColoursFrom_le {G : Graph} :
    ∀ (fuel k : Nat), minColoursFrom G fuel k ≤ k + fuel
  | 0, k => by simp [minColoursFrom]
  | fuel + 1, k => by
    rw [minColoursFrom]
    by_cases h : colourableWithB G k
    · rw [if_pos h]
      omega
    · rw [if_neg h]
      have := minColoursFrom_le (G := G) fuel (k + 1)
      omega

theorem minColoursFrom_colourable {G : Graph} :
    ∀ (fuel k : Nat), colourableWithB G (minColoursFrom G fuel k) = true ∨
      minColoursFrom G fuel k = k + fuel
  | 0, k => by simp [minColoursFrom]
  | fuel + 1, k => by
    rw [minColoursFrom]
    by_cases h : colourableWithB G k
    · rw [if_pos h]
      exact Or.inl h
    · rw [if_neg h]
      rcases minColoursFrom_colourable fuel (k + 1) with h' | h'
      · exact Or.inl h'
      · exact Or.inr (by omega)

theorem not_colourable_lt_minColoursFrom {G : Graph} :
    ∀ (fuel k : Nat) {j : Nat}, k ≤ j → j < minColoursFrom G fuel k →
      colourableWithB G j = false
  | 0, k, j, h1, h2 => by
    rw [minColoursFrom] at h2
    omega
  | fuel + 1, k, j, h1, h2 => by
    rw [minColoursFrom] at h2
    by_cases h : colourableWithB G k
    · rw [if_pos h] at h2
      omega
    · rw [if_neg h] at h2
      rcases Nat.eq_or_lt_of_le h1 with rfl | h1'
      · exact Bool.eq_false_iff.mpr h
      · exact not_colourable_lt_minColoursFrom fuel (k + 1) h1' h2

theorem minColoursFrom_le_of_colourable {G : Graph} :
    ∀ (fuel k : Nat) {j : Nat}, k ≤ j → colourableWithB G j = true →
      minColoursFrom G fuel k ≤ j
  | 0, k, j, h1, _ => by
    rw [minColoursFrom]
    exact h1
  | fuel + 1, k, j, h1, h2 => by
    rw [minColoursFrom]
    by_cases h : colourableWithB G k
    · rw [if_pos h]
      exact h1
    · rw [if_neg h]
      have hkj : k ≠ j := by
        intro hcontra
        rw [hcontra] at h
        exact h h2
      exact minColoursFrom_le_of_colourable fuel (k + 1) (by omega) h2

theorem minColours_le_of_colourable {G : Graph} {m : Nat}
    (hm : colourableWithB G m = true) : minColours G ≤ m :=
  minColoursFrom_le_of_colourable _ 0 (Nat.zero_le m) hm

theorem not_colourable_lt_minColours {G : Graph} {j : Nat} (hj : j < minColours G) :
    colourableWithB G j = false :=
  not_colourable_lt_minColoursFrom _ 0 (Nat.zero_le j) hj

theorem minColours_spec {G : Graph} :
    colourableWithB G (minColours G) = true ∨
      minColours G = G.vertices.length + 1 := by
  rcases minColoursFrom_colourable (G := G) (G.vertices.length + 1) 0 with h | h
  · exact Or.inl h
  · refine Or.inr ?_
    rw [minColours]
    omega

theorem not_colourable_of_product_levels_fail {G : Graph} {K : Nat}
    (hn : 1 ≤ G.vertices.length)
    (hfail : ∀ j, 1 ≤ j → j < K →
      tryCandidates G (productCandidates j G.vertices.length) = .ok none)
    {j0 : Nat} (hj0 : j0 < K) : colourableWithB G j0 = false := by
  rw [Bool.eq_false_iff]
  intro hcol
  obtain ⟨cl, hlen, hlt, hval⟩ := colourableWithB_iff.mp hcol
  have hclne : cl ≠ [] := by
    intro hc
    rw [hc] at hlen
    simp at hlen
    omega
  have hm1 : 1 ≤ (distinctsInOrder cl).length := length_distinctsInOrder_pos hclne
  have hmj0 : (distinctsInOrder cl).length ≤ j0 := length_distinctsInOrder_le_of_lt hlt
  have hcanlen : (canonicalize cl).length = G.vertices.length := by
    rw [length_canonicalize]
    exact hlen
  have hcanmem : canonicalize cl ∈
      productCandidates (distinctsInOrder cl).length G.vertices.length :=
    mem_productCandidates.mpr ⟨⟨hcanlen, fun x hx => mem_canonicalize_lt hx⟩,
      mem_canonicalize_of_lt (by omega)⟩
  have hcanval := canonicalize_valid (le_of_eq hlen) hval
  have hzip := colouring_list_to_dict_eq_zip (canonicalize cl) G.vertices (le_of_eq hcanlen)
  have hfalse := tryCandidates_ok_none
    (hfail (distinctsInOrder cl).length hm1 (by omega)) (canonicalize cl) hcanmem _ hzip
  rw [validateSeq_of_dict hzip] at hcanval
  rw [hcanval] at hfalse
  exact absurd (Option.some.inj hfalse) (by simp)

theorem not_colourable_of_custom_levels_fail {G : Graph} {K : Nat}
    (hn : 1 ≤ G.vertices.length)
    (hfail : ∀ j, 1 ≤ j → j < K →
      tryCandidates G (customCandidates j (create_options j G.vertices.length)) = .ok none)
    {j0 : Nat} (hj0 : j0 < K) : colourableWithB G j0 = false := by
  rw [Bool.eq_false_iff]
  intro hcol
  obtain ⟨cl, hlen, hlt, hval⟩ := colourableWithB_iff.mp hcol
  have hclne : cl ≠ [] := by
    intro hc
    rw [hc] at hlen
    simp at hlen
    omega
  have hm1 : 1 ≤ (distinctsInOrder cl).length := length_distinctsInOrder_pos hclne
  have hmj0 : (distinctsInOrder cl).length ≤ j0 := length_distinctsInOrder_le_of_lt hlt
  have hmn : (distinctsInOrder cl).length ≤ G.vertices.length :=
    hlen ▸ length_distinctsInOrder_le cl
  have hcanlen : (canonicalize cl).length = G.vertices.length := by
    rw [length_canonicalize]
    exact hlen
  have hoptlen : (create_options (distinctsInOrder cl).length G.vertices.length).length =
      G.vertices.length := length_create_options hmn
  have hpos : ∀ b ∈ create_options (distinctsInOrder cl).length G.vertices.length, 0 < b :=
    fun b hb => create_options_pos hm1 hb
  have hbound : ∀ j, j < (canonicalize cl).length → (canonicalize cl).getD j 0 <
      (create_options (distinctsInOrder cl).length G.vertices.length).getD j 0 := by
    intro j hj
    have hj' : j < cl.length := by
      rw [length_canonicalize] at hj
      exact hj
    have hjn : j < G.vertices.length := by omega
    rw [getD_create_options hmn hjn]
    have h1 := canonicalize_getD_le hj'
    have h2 := canonicalize_getD_lt hj'
    omega
  obtain ⟨c, hc, hgen⟩ := exists_counter
    (show (canonicalize cl).length =
      (create_options (distinctsInOrder cl).length G.vertices.length).length from by
        rw [length_canonicalize, hlen, hoptlen])
    hpos hbound
  have hcheck : check_all_colours_in_colouring_list (distinctsInOrder cl).length
      (canonicalize cl) = true := by
    rw [check_all_colours_in_colouring_list, length_distinctsInOrder_canonicalize]
    simp
  have hcanmem : canonicalize cl ∈ customCandidates (distinctsInOrder cl).length
      (create_options (distinctsInOrder cl).length G.vertices.length) :=
    mem_customCandidates.mpr ⟨⟨c, hc, hgen⟩, hcheck⟩
  have hcanval := canonicalize_valid (le_of_eq hlen) hval
  have hzip := colouring_list_to_dict_eq_zip (canonicalize cl) G.vertices (le_of_eq hcanlen)
  have hfalse := tryCandidates_ok_none
    (hfail (distinctsInOrder cl).length hm1 (by omega)) (canonicalize cl) hcanmem _ hzip
  rw [validateSeq_of_dict hzip] at hcanval
  rw [hcanval] at hfalse
  exact absurd (Option.some.inj hfalse) (by simp)

/-! Master results: each search, when it returns, returns a colouring with
exactly the least admissible number of distinct colours. -/

theorem found_distinct_eq {G : Graph} {cl : List Nat} {d : Colouring}
    (hd : colouring_list_to_dict cl G.vertices = some d) :
    distinctColours d = (distinctsInOrder cl).length := by
  obtain ⟨hle, rfl⟩ := colouring_list_to_dict_eq_some hd
  rw [distinctColours, List.map_snd_zip _ _ hle]

theorem product_found_eq_min {G : Graph} {fuel : Nat} {d : Colouring}
    (h : product_brute_force_colouring G fuel = .ok (some d)) :
    distinctColours d = minColours G := by
  obtain ⟨k0, hk01, hk02, hk0try, hk0fail⟩ := productSearchAux_levels h
  obtain ⟨cl, hclmem, hcld, hclval⟩ := tryCandidates_ok_some hk0try
  obtain ⟨⟨hlen, hlt⟩, hcontains⟩ := mem_productCandidates.mp hclmem
  have hclne : cl ≠ [] := by
    intro hc
    rw [hc] at hcontains
    simp at hcontains
  have hn : 1 ≤ G.vertices.length := by
    rw [← hlen]
    exact List.length_pos.mpr hclne
  have hm1 : 1 ≤ (distinctsInOrder cl).length := length_distinctsInOrder_pos hclne
  have hmk0 : (distinctsInOrder cl).length ≤ k0 := length_distinctsInOrder_le_of_lt hlt
  have hmn : (distinctsInOrder cl).length ≤ G.vertices.length :=
    hlen ▸ length_distinctsInOrder_le cl
  have hdm : distinctColours d = (distinctsInOrder cl).length := found_distinct_eq hcld
  have hvalseq : validateSeq G cl = some true := by
    rw [validateSeq_of_dict hcld]
    exact hclval
  have hcanval := canonicalize_valid (le_of_eq hlen) hvalseq
  have hcol_m : colourableWithB G (distinctsInOrder cl).length = true :=
    colourableWithB_iff.mpr ⟨canonicalize cl,
      by rw [length_canonicalize]; exact hlen,
      fun x hx => mem_canonicalize_lt hx, hcanval⟩
  have hle1 : minColours G ≤ (distinctsInOrder cl).length :=
    minColours_le_of_colourable hcol_m
  have hle2 : (distinctsInOrder cl).length ≤ minColours G := by
    by_contra hcon
    push_neg at hcon
    have hmin_col : colourableWithB G (minColours G) = true := by
      rcases minColours_spec with hc' | hc'
      · exact hc'
      · omega
    have hfalse := not_colourable_of_product_levels_fail hn
      (fun j hj1 hj2 => hk0fail j hj1 hj2) (show minColours G < k0 by omega)
    rw [hfalse] at hmin_col
    exact absurd hmin_col (by simp)
  omega

theorem custom_found_eq_min {G : Graph} {d : Colouring}
    (h : custom_brute_force_colouring G = .ok (some d)) :
    distinctColours d = minColours G := by
  obtain ⟨k0, hk01, hk02, hk0n, hk0try, hk0fail⟩ := customSearchAux_levels h
  obtain ⟨cl, hclmem, hcld, hclval⟩ := tryCandidates_ok_some hk0try
  obtain ⟨⟨c, hc, hgen⟩, hcheck⟩ := mem_customCandidates.mp hclmem
  have hlen : cl.length = G.vertices.length := by
    rw [← hgen, length_colouring_generator, length_create_options hk0n]
  have hmk0 : (distinctsInOrder cl).length = k0 := by
    rw [check_all_colours_in_colouring_list] at hcheck
    simpa using hcheck
  have hn : 1 ≤ G.vertices.length := le_trans hk01 hk0n
  have hclne : cl ≠ [] := by
    intro hcl
    rw [hcl] at hmk0
    simp [distinctsInOrder] at hmk0
    omega
  have hdm : distinctColours d = (distinctsInOrder cl).length := found_distinct_eq hcld
  have hvalseq : validateSeq G cl = some true := by
    rw [validateSeq_of_dict hcld]
    exact hclval
  have hcanval := canonicalize_valid (le_of_eq hlen) hvalseq
  have hcol_m : colourableWithB G (distinctsInOrder cl).length = true :=
    colourableWithB_iff.mpr ⟨canonicalize cl,
      by rw [length_canonicalize]; exact hlen,
      fun x hx => mem_canonicalize_lt hx, hcanval⟩
  have hle1 : minColours G ≤ (distinctsInOrder cl).length :=
    minColours_le_of_colourable hcol_m
  have hle2 : (distinctsInOrder cl).length ≤ minColours G := by
    by_contra hcon
    push_neg at hcon
    have hmin_col : colourableWithB G (minColours G) = true := by
      rcases minColours_spec with hc' | hc'
      · exact hc'
      · omega
    have hfalse := not_colourable_of_custom_levels_fail hn
      (fun j hj1 hj2 => hk0fail j hj1 hj2) (show minColours G < k0 by omega)
    rw [hfalse] at hmin_col
    exact absurd hmin_col (by simp)
  omega

theorem customSearchAux_fuel_stable {G : Graph} :
    ∀ (a b k : Nat), G.vertices.length + 2 ≤ k + a → G.vertices.length + 2 ≤ k + b →
      customSearchAux G k a = customSearchAux G k b
  | 0, 0, _, _, _ => rfl
  | 0, b + 1, k, h1, _ => by
    rw [customSearchAux_succ_guard (by omega)]
    rfl
  | a + 1, 0, k, _, h2 => by
    rw [customSearchAux_succ_guard (by omega)]
    rfl
  | a + 1, b + 1, k, h1, h2 => by
    rw [customSearchAux_succ, customSearchAux_succ]
    by_cases hk : k ≤ G.vertices.length
    · rw [if_pos hk, if_pos hk]
      rcases exceptCases
        (tryCandidates G (customCandidates k (create_options k G.vertices.length)))
        with h | h | ⟨d, h⟩
      · rw [h]
      · rw [h]
        show customSearchAux G (k + 1) a = customSearchAux G (k + 1) b
        exact customSearchAux_fuel_stable a b (k + 1) (by omega) (by omega)
      · rw [h]
    · rw [if_neg hk, if_neg hk]

/-! The claims. -/

theorem getD_eq_getElem_of_lt {l : List Nat} {i : Nat} (h : i < l.length) :
    l.getD i 0 = l[i] := by
  rw [List.getD_eq_getElem?_getD, List.getElem?_eq_getElem h]
  rfl

theorem create_options_eq_map {k n : Nat} (hkn : k ≤ n) :
    create_options k n = (List.range n).map (fun i => min (i + 1) k) := by
  apply List.ext_getElem
  · rw [length_create_options hkn]
    simp
  · intro i h1 h2
    have hi : i < n := by
      rw [length_create_options hkn] at h1
      exact h1
    rw [← getD_eq_getElem_of_lt h1, getD_create_options hkn hi]
    simp

/-- Claim C1: every colouring returned by `product_brute_force_colouring` or
`custom_brute_force_colouring` is a proper colouring: `validate_colouring`
holds of it, and for every edge, the two endpoint colours exist in the map
and differ. -/
theorem C1_returned_colourings_valid (G : Graph) (fuel : Nat) (d d' : Colouring) :
    (product_brute_force_colouring G fuel = .ok (some d) →
      validate_colouring G d = some true ∧
      ∀ e ∈ G.edges, ∃ c1 c2, dictLookup d e.1 = some c1 ∧
        dictLookup d e.2 = some c2 ∧ c1 ≠ c2) ∧
    (custom_brute_force_colouring G = .ok (some d') →
      validate_colouring G d' = some true ∧
      ∀ e ∈ G.edges, ∃ c1 c2, dictLookup d' e.1 = some c1 ∧
        dictLookup d' e.2 = some c2 ∧ c1 ≠ c2) := by
  constructor
  · intro h
    have hv := productSearchAux_valid h
    exact ⟨hv, validate_edges_eq_some_true.mp hv⟩
  · intro h
    have hv := customSearchAux_valid h
    exact ⟨hv, validate_edges_eq_some_true.mp hv⟩

/-- Witness for C1 on the single-edge graph. -/
theorem C1_witness :
    validate_colouring ⟨[0, 1], [(0, 1)]⟩ [(0, 0), (1, 1)] = some true :=
  ((C1_returned_colourings_valid ⟨[0, 1], [(0, 1)]⟩ 2
    [(0, 0), (1, 1)] [(0, 0), (1, 1)]).1 rfl).1

/-- Claim C2, counterexample: on the graph with no vertices the custom search
takes its `colours > size` branch at the very first iteration and returns the
Python `None` ("no colouring exists") outcome, and the product search finds
nothing either (one hundred loop iterations shown); so C2 as stated fails at
n = 0. -/
theorem C2_counterexample :
    custom_brute_force_colouring ⟨[], []⟩ = .ok none ∧
    product_brute_force_colouring ⟨[], []⟩ 100 = .ok none :=
  ⟨rfl, rfl⟩

/-- Claim C2 (amended: the graph must have at least one vertex): for every
well-formed graph with `n ≥ 1` vertices, the product search returns a valid
colouring within any `fuel ≥ n` iterations of its colour-count loop (so by
colour count `k = n`), and the custom search returns a valid colouring. -/
theorem C2_amended_terminate (G : Graph) (fuel : Nat) (hWF : G.WF)
    (hn : 1 ≤ G.vertices.length) (hfuel : G.vertices.length ≤ fuel) :
    (∃ d, product_brute_force_colouring G fuel = .ok (some d) ∧
      validate_colouring G d = some true) ∧
    (∃ d, custom_brute_force_colouring G = .ok (some d) ∧
      validate_colouring G d = some true) := by
  constructor
  · obtain ⟨d, hd⟩ := product_succeeds hWF hn hfuel
    exact ⟨d, hd, productSearchAux_valid hd⟩
  · obtain ⟨d, hd⟩ := custom_succeeds hWF hn
    exact ⟨d, hd, customSearchAux_valid hd⟩

/-- Witness for the amended C2 on the single-edge graph. -/
theorem C2_witness :
    custom_brute_force_colouring ⟨[0, 1], [(0, 1)]⟩ ≠ .ok none := by
  intro hcontra
  obtain ⟨d, hd, _⟩ := (C2_amended_terminate ⟨[0, 1], [(0, 1)]⟩ 2
    (by decide) (by decide) (by decide)).2
  rw [hd] at hcontra
  exact absurd (Except.ok.inj hcontra) (by simp)

/-- Claim C3: a colouring returned by either search uses exactly
`minColours G` distinct colours — the least colour count admitting a valid
colouring — and in particular no more distinct colours than any `k` for
which a valid `k`-colouring exists. -/
theorem C3_minimality (G : Graph) (fuel : Nat) (d d' : Colouring) :
    (product_brute_force_colouring G fuel = .ok (some d) →
      distinctColours d = minColours G ∧
      ∀ j, colourableWithB G j = true → distinctColours d ≤ j) ∧
    (custom_brute_force_colouring G = .ok (some d') →
      distinctColours d' = minColours G ∧
      ∀ j, colourableWithB G j = true → distinctColours d' ≤ j) := by
  constructor
  · intro h
    have he := product_found_eq_min h
    refine ⟨he, fun j hj => ?_⟩
    have := minColours_le_of_colourable hj
    omega
  · intro h
    have he := custom_found_eq_min h
    refine ⟨he, fun j hj => ?_⟩
    have := minColours_le_of_colourable hj
    omega

/-- Witness for C3 on the single-edge graph. -/
theorem C3_witness :
    distinctColours [(0, 0), (1, 1)] = minColours ⟨[0, 1], [(0, 1)]⟩ :=
  ((C3_minimality ⟨[0, 1], [(0, 1)]⟩ 2 [(0, 0), (1, 1)] [(0, 0), (1, 1)]).1 rfl).1

/-- Claim C4: on any well-formed graph with at least one vertex, both searches
succeed and their returned colourings use the same number of distinct colours,
namely the least admissible colour count. -/
theorem C4_equivalence (G : Graph) (fuel : Nat) (hWF : G.WF)
    (hn : 1 ≤ G.vertices.length) (hfuel : G.vertices.length ≤ fuel) :
    ∃ dp dc, product_brute_force_colouring G fuel = .ok (some dp) ∧
      custom_brute_force_colouring G = .ok (some dc) ∧
      distinctColours dp = distinctColours dc ∧
      distinctColours dp = minColours G := by
  obtain ⟨dp, hdp⟩ := product_succeeds hWF hn hfuel
  obtain ⟨dc, hdc⟩ := custom_succeeds hWF hn
  have h1 := product_found_eq_min hdp
  have h2 := custom_found_eq_min hdc
  exact ⟨dp, dc, hdp, hdc, by omega, h1⟩

/-- Witness for C4 on the single-edge graph: the common distinct-colour count
is the chromatic number two. -/
theorem C4_witness : minColours ⟨[0, 1], [(0, 1)]⟩ = 2 := by
  obtain ⟨dp, dc, hdp, hdc, heq, hmin⟩ :=
    C4_equivalence ⟨[0, 1], [(0, 1)]⟩ 2 (by decide) (by decide) (by decide)
  have hev : dp = [(0, 0), (1, 1)] := by
    have h : product_brute_force_colouring ⟨[0, 1], [(0, 1)]⟩ 2 =
        .ok (some [(0, 0), (1, 1)]) := rfl
    rw [h] at hdp
    exact (Option.some.inj (Except.ok.inj hdp)).symm
  rw [hev] at hmin
  rw [← hmin]
  rfl

/-- Claim C5: at colour count `k` the product search materialises and
validates exactly the product sequences containing the value `k − 1`; a
sequence lacking `k − 1` is never validated. -/
theorem C5_product_pruning (k n : Nat) (cl : List Nat) :
    cl ∈ productCandidates k n ↔ cl ∈ allSeqs k n ∧ (k - 1) ∈ cl := by
  rw [mem_productCandidates, mem_allSeqs]

/-- Claim C6: for `2 ≤ k ≤ n` the constrained search enumerates
`∏ min(i+1, k)` candidates at colour count `k`, strictly fewer than the
`k ^ n` candidates of the exhaustive product search. -/
theorem C6_constrained_fewer (k n : Nat) (h2 : 2 ≤ k) (hkn : k ≤ n) :
    number_colourings (create_options k n) =
      ((List.range n).map (fun i => min (i + 1) k)).prod ∧
    number_colourings (create_options k n) < k ^ n := by
  constructor
  · rw [number_colourings_eq_prod, create_options_eq_map hkn]
  · have h1 : Nat.factorial k < k ^ k := factorial_lt_pow_self h2
    have h3 : 0 < k ^ (n - k) := Nat.pow_pos (by omega)
    calc number_colourings (create_options k n) = Nat.factorial k * k ^ (n - k) := by
          rw [number_colourings_eq_prod, prod_create_options]
      _ < k ^ k * k ^ (n - k) := (Nat.mul_lt_mul_right h3).mpr h1
      _ = k ^ (k + (n - k)) := (Nat.pow_add k k (n - k)).symm
      _ = k ^ n := by
          congr 1
          omega

/-- Witness for C6 at k = 2, n = 3. -/
theorem C6_witness : number_colourings (create_options 2 3) < 2 ^ 3 :=
  (C6_constrained_fewer 2 3 (by decide) (by decide)).2

/-- Claim C7: for `1 ≤ k ≤ n`, `create_options k n` has length `n` with entry
`min(i+1, k)` at position `i`; in particular `create_options 3 5 = [1,2,3,3,3]`
with candidate count 54. -/
theorem C7_create_options_spec (k n : Nat) (_hk1 : 1 ≤ k) (hkn : k ≤ n) :
    (create_options k n).length = n ∧
    (∀ i, i < n → (create_options k n).getD i 0 = min (i + 1) k) ∧
    create_options 3 5 = [1, 2, 3, 3, 3] ∧
    number_colourings (create_options 3 5) = 54 :=
  ⟨length_create_options hkn, fun _ hi => getD_create_options hkn hi, rfl, rfl⟩

/-- Witness for C7 at k = 3, n = 5. -/
theorem C7_witness : (create_options 3 5).length = 5 :=
  (C7_create_options_spec 3 5 (by decide) (by decide)).1

/-- Claim C8: for positive bounds and any candidate index below the bound
product, `colouring_generator` returns the mixed-radix digit sequence of the
index: position `j` holds `(index / ∏ of the bounds after j) mod bound j`;
in particular `colouring_generator 5 [1,2,3] = [0,1,2]`. -/
theorem C8_colouring_generator_spec (i : Nat) (options : List Nat)
    (_hpos : ∀ b ∈ options, 0 < b) (_hi : i < number_colourings options) :
    (colouring_generator i options).length = options.length ∧
    (∀ j, j < options.length →
      (colouring_generator i options).getD j 0 =
        (i / (options.drop (j + 1)).prod) % options.getD j 0) ∧
    colouring_generator 5 [1, 2, 3] = [0, 1, 2] :=
  ⟨length_colouring_generator i options, fun _ hj => getD_colouring_generator hj, rfl⟩

/-- Witness for C8 at index 5 with options [1, 2, 3]. -/
theorem C8_witness : colouring_generator 5 [1, 2, 3] = [0, 1, 2] :=
  (C8_colouring_generator_spec 5 [1, 2, 3] (by decide) (by decide)).2.2

/-- Claim C9, counterexample: the claim says every length mismatch is an
error, but a colour list strictly shorter than the vertex list is accepted:
`colouring_list_to_dict [] [0]` returns the (partial, here empty) map instead
of failing, although the lengths differ. -/
theorem C9_counterexample :
    ([] : List Nat).length ≠ [0].length ∧
    colouring_list_to_dict [] [0] = some [] :=
  ⟨by decide, rfl⟩

/-- Claim C9 (amended): `colouring_list_to_dict` pairs `vertices[i]` with
`colours[i]` for every index of the colour list; it fails with an error
exactly when the colour list is strictly longer than the vertex list (a
strictly shorter colour list silently yields a partial map). -/
theorem C9_amended_spec (cl vs : List Nat) :
    (cl.length ≤ vs.length → colouring_list_to_dict cl vs = some (vs.zip cl)) ∧
    (vs.length < cl.length → colouring_list_to_dict cl vs = none) ∧
    (cl.length = vs.length → vs.Nodup → ∀ i, i < vs.length →
      ∃ d, colouring_list_to_dict cl vs = some d ∧
        dictLookup d (vs.getD i 0) = some (cl.getD i 0)) := by
  refine ⟨colouring_list_to_dict_eq_zip cl vs, colouring_list_to_dict_eq_none cl vs, ?_⟩
  intro hlen hnd i hi
  refine ⟨vs.zip cl, colouring_list_to_dict_eq_zip cl vs (le_of_eq hlen), ?_⟩
  have h := dictLookup_zip_getElem vs cl hnd hi (by omega)
  rw [getD_eq_getElem_of_lt hi, getD_eq_getElem_of_lt (show i < cl.length by omega)]
  exact h

/-- Witness for the amended C9. -/
theorem C9_witness :
    colouring_list_to_dict [5, 7] [10, 11] = some [(10, 5), (11, 7)] :=
  (C9_amended_spec [5, 7] [10, 11]).1 (by decide)

/-- Claim C10: a colouring returned by the custom search always assigns
colour 0 to the first vertex of the graph's vertex order, because position 0
of every options vector has bound 1 and so every decoded candidate starts
with digit 0. -/
theorem C10_first_vertex_zero (G : Graph) (v0 : Nat) (vs : List Nat) (d : Colouring)
    (hv : G.vertices = v0 :: vs)
    (hd : custom_brute_force_colouring G = .ok (some d)) :
    dictLookup d v0 = some 0 := by
  obtain ⟨k0, hk01, _, hk0n, hk0try, _⟩ := customSearchAux_levels hd
  obtain ⟨cl, hclmem, hcld, _⟩ := tryCandidates_ok_some hk0try
  obtain ⟨⟨c, _, hgen⟩, _⟩ := mem_customCandidates.mp hclmem
  have hn : 1 ≤ G.vertices.length := by
    rw [hv]
    simp
  have hlen : cl.length = G.vertices.length := by
    rw [← hgen, length_colouring_generator, length_create_options hk0n]
  have hoptlen : (create_options k0 G.vertices.length).length = G.vertices.length :=
    length_create_options hk0n
  have hdigit : cl.getD 0 0 = 0 := by
    rw [← hgen, getD_colouring_generator (by omega), getD_create_options hk0n (by omega)]
    have hmin : min (0 + 1) k0 = 1 := by omega
    rw [hmin, Nat.mod_one]
  obtain ⟨hle, rfl⟩ := colouring_list_to_dict_eq_some hcld
  cases cl with
  | nil =>
    rw [hv] at hlen
    simp at hlen
  | cons c0 cl' =>
    have hc0 : c0 = 0 := by simpa using hdigit
    rw [hv, List.zip_cons_cons, dictLookup_cons, if_pos rfl, hc0]

/-- Witness for C10 on the single-edge graph. -/
theorem C10_witness : dictLookup [(0, 0), (1, 1)] 0 = some 0 :=
  C10_first_vertex_zero ⟨[0, 1], [(0, 1)]⟩ 0 [1] [(0, 0), (1, 1)] rfl rfl
